import Mathlib

/-!
Shallow embedding of the `lovego/filestorage` repository (files `links.go`,
`upload.go`, `link_object.go`) and proofs about its link ledger, its
content-addressed storage layout and its upload orchestration.

Modelling conventions:
* The relational store backing the ledger is a `Db` value: the files table is
  the list of hashes owning a `FileRecord`, the links table is a list of
  `LinkRecord` rows kept in insertion order, with `created_at` taken from a
  monotone counter (Go reads `time.Now()` once per `INSERT` statement).
* Every round trip to the database (`Exec` / `Query`) consumes one step of a
  failure oracle `failAt` at the current call counter, modelling database
  errors; a failed call performs no mutation, as in SQL.
* Go functions returning `error` become functions returning
  `Option Err × Db`: the returned state is the database as mutated so far,
  so early-return paths leave it untouched, exactly like the Go code.
* Strings are modelled at the character level; all content hashes are ASCII,
  so Go byte indexing coincides with character indexing.
-/

namespace Filestorage

/-- Error values surfaced by the modelled code (`errs.New` values in Go,
plus `dbErr` for an error bubbled up from the database driver and
`ioErr` for an operating-system failure). -/
inductive Err where
  | emptyObject
  | invalidHash
  | fileNotExists
  | notLinked
  | invalidObject
  | dbErr
  | ioErr
  deriving DecidableEq, Repr

/-- A row of the links table (`file`, `object`, `created_at`), from the
schema created in `links.go` `createLinksTable`. -/
structure LinkRecord where
  file : String
  object : String
  createdAt : Nat
  deriving DecidableEq, Repr

/-- The relational store consumed by the ledger: the externally owned files
table (hashes having a `FileRecord`), the links table in insertion order,
a monotone clock for `created_at`, and the database-call counter together
with the failure oracle driving `dbErr` outcomes. -/
structure Db where
  files : List String
  links : List LinkRecord
  now : Nat
  calls : Nat
  failAt : Nat → Bool

/-- Advance the database-call counter: every round trip to the database
performs this step, after reading the failure oracle at the current
counter (`s.failAt s.calls`). -/
def Db.step (s : Db) : Db :=
  { s with calls := s.calls + 1 }

/-- Does the next database call fail? -/
def Db.fails (s : Db) : Bool :=
  s.failAt s.calls

/-- Sequencing of two fallible database steps: the second runs only when the
first succeeded (mirrors Go early `return err`). -/
def andThen (r : Option Err × Db) (k : Db → Option Err × Db) : Option Err × Db :=
  match r with
  | (some e, s) => (some e, s)
  | (none, s) => k s

/-- From `links.go`: `emptyFiles` is true when the hash list is empty or a
single empty string. -/
def emptyFiles (files : List String) : Bool :=
  files.length = 0 || (files.length = 1 && files.headD "" = "")

/-- A lowercase hexadecimal digit. -/
def isHexChar (c : Char) : Bool :=
  c.isDigit || ('a' ≤ c && c ≤ 'f')

/-- Length of a content hash.  Modelled from the spec: the hash is a
fixed-length hex string; the length is fixed at 40 characters. -/
def hashLen : Nat := 40

/-- A well-formed content hash: fixed-length lowercase hex. -/
def validHash (s : String) : Bool :=
  s.length = hashLen && s.data.all isHexChar

/-- Modelled from the spec: `CheckHash` (defined outside the provided source
files) validates that every hash matches the fixed-pattern hex hash format,
failing with an invalid-hash error otherwise. -/
def CheckHash (files : List String) : Option Err :=
  if files.all validHash then none else some .invalidHash

/-- Does some row link `f` to `o`? -/
def linkedPair (l : List LinkRecord) (f o : String) : Prop :=
  ∃ r ∈ l, r.file = f ∧ r.object = o

instance (l : List LinkRecord) (f o : String) : Decidable (linkedPair l f o) :=
  List.decidableBEx _ l

/-- From `links.go` `CheckFile`: one query listing the given hashes that have
no row in the files table; any missing hash yields `fileNotExists`.  The
query interpolates the hashes without validating them.  With an empty hash
list the generated `VALUES` clause is malformed SQL, so the query itself
errors. -/
def CheckFile (s : Db) (files : List String) : Option Err × Db :=
  if s.fails then (some .dbErr, s.step)
  else if files.isEmpty then (some .dbErr, s.step)
  else if files.all (fun f => s.files.contains f) then (none, s.step)
  else (some .fileNotExists, s.step)

/-- Effect of `INSERT ... ON CONFLICT (file, object) DO NOTHING` for a single
row: append unless the (file, object) pair is already present. -/
def insertLink (l : List LinkRecord) (f o : String) (ts : Nat) : List LinkRecord :=
  if linkedPair l f o then l else l ++ [⟨f, o, ts⟩]

/-- All rows of one `INSERT` statement, one per hash, sharing one timestamp. -/
def insertAll (l : List LinkRecord) (files : List String) (o : String) (ts : Nat) :
    List LinkRecord :=
  files.foldl (fun acc f => insertLink acc f o ts) l

/-- The single `INSERT` statement executed by `Link`: one database call, all
(hash, object) rows with the current time, conflicting pairs skipped. -/
def insertLinks (s : Db) (object : String) (files : List String) : Option Err × Db :=
  if s.fails then (some .dbErr, s.step)
  else (none, { s.step with links := insertAll s.links files object s.now, now := s.now + 1 })

/-- From `links.go` `Link`: reject an empty object, succeed immediately on an
empty hash list, validate the hash format, validate file existence, then
insert the link rows. -/
def Link (s : Db) (object : String) (files : List String) : Option Err × Db :=
  if object = "" then (some .emptyObject, s)
  else if emptyFiles files then (none, s)
  else match CheckHash files with
    | some e => (some e, s)
    | none => andThen (CheckFile s files) (fun s1 => insertLinks s1 object files)

/-- From `links.go` `unlink`: one `DELETE` statement removing every row of
`object` whose file satisfies `cond` (the interpolated SQL condition:
always true for no condition, membership for `IN`, non-membership for
`NOT IN`). -/
def unlink (s : Db) (object : String) (cond : String → Bool) : Option Err × Db :=
  if s.fails then (some .dbErr, s.step)
  else (none, { s.step with links := s.links.filter (fun r => !(r.object = object && cond r.file)) })

/-- From `upload.go` `runInTx`, for work routed through the transaction
handle: begin a transaction, run the work on it, roll back (restoring the
table contents) when it fails, commit when it succeeds. -/
def runInTx (s : Db) (work : Db → Option Err × Db) : Option Err × Db :=
  match work s with
  | (some e, s1) => (some e, { s1 with files := s.files, links := s.links })
  | (none, s1) => (none, s1)

/-- From `links.go` `LinkOnly`.  The Go code wraps the two steps in
`runInTx`, but the closure passed to `runInTx` ignores the transaction
handle `tx` it receives and issues both the `Link` and the `unlink`
through the outer handle `db`; the transaction begun by `runInTx` thus
contains no statement, and committing or rolling back that empty
transaction leaves the database unchanged.  The model therefore applies
both steps directly to the shared state. -/
def LinkOnly (s : Db) (object : String) (files : List String) : Option Err × Db :=
  if object = "" then (some .emptyObject, s)
  else if emptyFiles files then unlink s object (fun _ => true)
  else andThen (Link s object files)
    (fun s1 => unlink s1 object (fun f => !(files.contains f)))

/-- From `links.go` `UnlinkAllOf`: delete every link row of the object. -/
def UnlinkAllOf (s : Db) (object : String) : Option Err × Db :=
  if object = "" then (some .emptyObject, s)
  else unlink s object (fun _ => true)

/-- From `links.go` `Unlink`: delete exactly the named (hash, object) pairs
after validating the hashes. -/
def Unlink (s : Db) (object : String) (files : List String) : Option Err × Db :=
  if object = "" then (some .emptyObject, s)
  else if emptyFiles files then (none, s)
  else match CheckHash files with
    | some e => (some e, s)
    | none => unlink s object (fun f => files.contains f)

/-- From `links.go` `Linked`: validate the hash, then query for the pair;
a missing row is `false`, not an error. -/
def Linked (s : Db) (object file : String) : Option Err × Bool × Db :=
  match CheckHash [file] with
  | some e => (some e, false, s)
  | none =>
    if s.fails then (some .dbErr, false, s.step)
    else (none, decide (linkedPair s.links file object), s.step)

/-- From `links.go` `EnsureLinked`: as `Linked`, but a false answer becomes
the not-linked error. -/
def EnsureLinked (s : Db) (object file : String) : Option Err × Db :=
  match Linked s object file with
  | (some e, _, s1) => (some e, s1)
  | (none, ok, s1) => if ok then (none, s1) else (some .notLinked, s1)

/-- From `links.go` `FilesOf`: the files linked to the object, ordered by
`created_at` ascending (the links table is kept in insertion order and the
clock is monotone, so the stored order realises `ORDER BY created_at`). -/
def FilesOf (s : Db) (object : String) : Option Err × List String × Db :=
  if s.fails then (some .dbErr, [], s.step)
  else (none, (s.links.filter (fun r => r.object = object)).map (fun r => r.file), s.step)

/-! ### LinkObject (`link_object.go`) -/

/-- From `link_object.go`: structured reference for a link object string. -/
structure LinkObject where
  Table : String := ""
  ID : Int := 0
  Field : String := ""
  deriving DecidableEq, Repr

/-- A word character, as matched by the regular expression class `\w`
(ASCII letters, digits and underscore). -/
def isWordChar (c : Char) : Bool :=
  c.isAlpha || c.isDigit || c = '_'

/-- Decimal digits of a natural number, most significant first
(the digits `strconv.FormatInt` prints for a non-negative value). -/
def formatNatChars (n : Nat) : List Char :=
  if h : n < 10 then [Char.ofNat (48 + n)]
  else formatNatChars (n / 10) ++ [Char.ofNat (48 + n % 10)]
decreasing_by exact Nat.div_lt_self (by omega) (by omega)

/-- Decimal rendering of an integer, as `strconv.FormatInt(i, 10)`. -/
def formatInt (i : Int) : String :=
  if i < 0 then "-" ++ ⟨formatNatChars (-i).toNat⟩ else ⟨formatNatChars i.toNat⟩

/-- From `link_object.go` `LinkObject.String`: the zero value renders as the
empty string, otherwise `table|id` with `|field` appended when the field is
non-empty. -/
def LinkObject.toStr (o : LinkObject) : String :=
  if o.Table = "" ∧ o.ID = 0 ∧ o.Field = "" then ""
  else o.Table ++ "|" ++ formatInt o.ID ++ (if o.Field = "" then "" else "|" ++ o.Field)

/-- Split a character list on the bar separator (how the anchored regular
expression `([\w.]+)\|(\d+)(\|(\w+))?` decomposes its subject: no
character class of the pattern matches a bar). -/
def splitBar : List Char → List (List Char)
  | [] => [[]]
  | c :: cs =>
    if c = '|' then [] :: splitBar cs
    else
      match splitBar cs with
      | [] => [[c]]
      | seg :: segs => (c :: seg) :: segs

/-- A non-empty run of table-name characters (`[\w.]+`). -/
def segTable (t : List Char) : Bool :=
  !t.isEmpty && t.all (fun c => isWordChar c || c = '.')

/-- A non-empty run of decimal digits (`\d+`). -/
def segDigits (d : List Char) : Bool :=
  !d.isEmpty && d.all Char.isDigit

/-- A non-empty run of word characters (`\w+`). -/
def segWord (f : List Char) : Bool :=
  !f.isEmpty && f.all isWordChar

/-- The match of `objectRegexp`, yielding the captured table, digit and
field submatches (`m[1]`, `m[2]`, `m[4]`, with an absent field group
captured as the empty string). -/
def matchObject (s : String) : Option (String × String × String) :=
  match splitBar s.data with
  | [t, d] => if segTable t && segDigits d then some (⟨t⟩, ⟨d⟩, "") else none
  | [t, d, f] =>
    if segTable t && segDigits d && segWord f then some (⟨t⟩, ⟨d⟩, ⟨f⟩) else none
  | _ => none

/-- Value of a digit string, most significant first. -/
def decodeDigits (ds : List Char) : Nat :=
  ds.foldl (fun a c => a * 10 + (c.toNat - 48)) 0

/-- `strconv.ParseInt(d, 10, 64)` on an all-digit subject: the decimal value
when it fits in a signed 64-bit integer, an error (range overflow)
otherwise. -/
def parseIntDec (d : String) : Except Unit Int :=
  if decodeDigits d.data < 2 ^ 63 then .ok (Int.ofNat (decodeDigits d.data)) else .error ()

/-- From `link_object.go` `LinkObject.UnmarshalJSON`, after the JSON layer
has produced the subject string: the empty string leaves the receiver at
the zero value; a string rejected by `objectRegexp` (or whose digit group
overflows a 64-bit integer) is an invalid-object error; otherwise the
captured groups populate the reference. -/
def parseLinkObject (s : String) : Except Err LinkObject :=
  if s = "" then .ok {}
  else
    match matchObject s with
    | none => .error .invalidObject
    | some (t, d, f) =>
      match parseIntDec d with
      | .error _ => .error .invalidObject
      | .ok i => .ok ⟨t, i, f⟩

/-- A valid object reference in the sense of the data model: non-empty
word-character table name, non-negative identifier representable in a
signed 64-bit integer, optional word-character field. -/
def ValidObjectRef (o : LinkObject) : Prop :=
  o.Table ≠ "" ∧ (∀ c ∈ o.Table.data, isWordChar c = true) ∧
    0 ≤ o.ID ∧ o.ID < 2 ^ 63 ∧ (∀ c ∈ o.Field.data, isWordChar c = true)

/-! ### Hash addressing and the content store (`upload.go`) -/

/-- Bucket configuration fields the modelled operations consume: the
physical root directory and the directory-sharding depth (`DirDepth` is a
`uint8` in Go; naturals embed it). -/
structure Bucket where
  Dir : String := ""
  DirDepth : Nat := 0

/-- `filepath.Join` of two path components on the values this code builds:
joining with an empty left component yields the right component. -/
def pjoin (a b : String) : String :=
  if a = "" then b else a ++ "/" ++ b

/-- Loop of `Bucket.FilePath`: `d` remaining single-character segments to
take starting at index `i`, accumulated path so far.  Go slices the hash
with `hash[i : i+1]`, which panics when `i+1` exceeds the length; the
panic is modelled as `none`. -/
def filePathGo (hash : String) : Nat → Nat → String → Option String
  | 0, _, path => some (pjoin path hash)
  | d + 1, i, path =>
    if h : i < hash.data.length then
      filePathGo hash d (i + 1) (pjoin path ⟨[hash.data.get ⟨i, h⟩]⟩)
    else none

/-- From `upload.go` `Bucket.FilePath`: the sharded relative path of a hash,
`DirDepth` single-character directories from its leading characters
followed by the full hash. -/
def FilePath (b : Bucket) (hash : String) : Option String :=
  filePathGo hash b.DirDepth 0 ""

/-- The path `FilePath` is specified to produce: one directory per leading
character up to the depth, then the hash itself. -/
def shardedPath (depth : Nat) (hash : String) : String :=
  List.foldr (fun c acc => pjoin ⟨[c]⟩ acc) hash (hash.data.take depth)

/-- Parent directory of a path: everything before the last separator
(`filepath.Dir`, restricted to the relative separator-joined paths this
code builds; a separator-free path is rooted at the current directory). -/
def parentDir (p : String) : String :=
  if (p.data.reverse.dropWhile (fun c => c ≠ '/')).isEmpty then "."
  else ⟨(p.data.reverse.dropWhile (fun c => c ≠ '/')).drop 1 |>.reverse⟩

/-- File contents are byte lists. -/
abbrev Bytes := List Nat

/-- The local filesystem: existing files with their contents, and the set of
directories that have been created. -/
structure Fs where
  filesOnDisk : List (String × Bytes)
  dirs : List String

/-- Content stored at a path, when a file exists there. -/
def Fs.lookup (fs : Fs) (p : String) : Option Bytes :=
  (fs.filesOnDisk.find? (fun e => e.fst = p)).map (fun e => e.snd)

/-- Fault selections for one `writeFile` call: whether `os.Stat` fails with
an error other than not-exists, whether `os.MkdirAll` fails, whether a
concurrent writer creates the destination (with some content) between the
stat and the exclusive open, and whether `io.Copy` fails. -/
structure WfFaults where
  statErr : Bool := false
  mkdirErr : Bool := false
  race : Option Bytes := none
  copyErr : Bool := false

/-- From `upload.go` `Bucket.writeFile`: succeed untouched when the
destination exists; otherwise create the parent directories and open the
destination with `O_CREATE|O_EXCL`; when the exclusive open loses a
creation race, the exists error is success; a copy failure leaves a
truncated file behind and surfaces the error. -/
def writeFile (fs : Fs) (dest : String) (content : Bytes) (f : WfFaults) :
    Option Err × Fs :=
  match fs.lookup dest with
  | some _ => (none, fs)
  | none =>
    if f.statErr then (some .ioErr, fs)
    else if f.mkdirErr then (some .ioErr, fs)
    else
      let fs1 : Fs := { fs with dirs := parentDir dest :: fs.dirs }
      match f.race with
      | some c =>
        (none, { fs1 with filesOnDisk := (dest, c) :: fs1.filesOnDisk })
      | none =>
        if f.copyErr then
          (some .ioErr, { fs1 with filesOnDisk := (dest, []) :: fs1.filesOnDisk })
        else (none, { fs1 with filesOnDisk := (dest, content) :: fs1.filesOnDisk })

/-! ### Upload orchestration (`upload.go` `save`) -/

/-- A hexadecimal digit character. -/
def hexDigit (n : Nat) : Char :=
  if n < 10 then Char.ofNat (48 + n) else Char.ofNat (87 + n)

/-- Modelled from the spec: the content hash of a byte sequence
(`createFileRecords` is outside the provided source files).  The spec fixes
only that the hash is a deterministic fixed-length hex digest of the bytes;
the model renders a 40-digit hex digest of a simple deterministic
accumulator. -/
def hashBytes (bs : Bytes) : String :=
  ⟨(List.range hashLen).map
    (fun i => hexDigit ((bs.foldl (fun a b => (a * 131 + b + 1) % 16 ^ hashLen) 7
      / 16 ^ (hashLen - 1 - i)) % 16))⟩

/-- A file payload handed to `Save`: its bytes and the detected content type
(the check policy receives the content type and the size). -/
structure GoFile where
  content : Bytes
  contentType : String := ""

/-- Modelled from the spec: `createFileRecords` validates every file through
the caller-supplied check policy (any failure aborts the whole batch before
any mutation), computes the content hashes, and inserts or confirms one
`FileRecord` per hash with one database statement. -/
def createFileRecords (s : Db) (check : String → Int → Option Err)
    (files : List GoFile) : Option Err × Db × List String :=
  match files.findSome? (fun f => check f.contentType (Int.ofNat f.content.length)) with
  | some e => (some e, s, [])
  | none =>
    let hashes := files.map (fun f => hashBytes f.content)
    if s.fails then (some .dbErr, s.step, [])
    else
      let recs := hashes.foldl (fun acc h => if acc.contains h then acc else acc ++ [h]) s.files
      (none, { s.step with files := recs }, hashes)

/-- Observable events of one `save` run: the ledger link of the batch and
each physical write of a file's bytes. -/
inductive Ev where
  | link (object : String) (files : List String)
  | write (hash : String)
  deriving DecidableEq, Repr

/-- The write loop at the end of `save`: persist each record's bytes at its
sharded destination (the local-machine branch of `saveFile`), stopping at
the first failure; a hash shorter than the sharding depth panics inside
`FilePath`, modelled as an `ioErr`-style abort with no write performed. -/
def saveWrites (b : Bucket) (faults : Nat → WfFaults) :
    List (String × Bytes) → Nat → Fs → Option Err × Fs × List Ev
  | [], _, fs => (none, fs, [])
  | (h, bytes) :: rest, i, fs =>
    match FilePath b h with
    | none => (some .ioErr, fs, [])
    | some rel =>
      match writeFile fs (pjoin b.Dir rel) bytes (faults i) with
      | (some e, fs1) => (some e, fs1, [.write h])
      | (none, fs1) =>
        let rec1 := saveWrites b faults rest (i + 1) fs1
        (rec1.1, rec1.2.1, .write h :: rec1.2.2)

/-- From `upload.go` `save`: create the file records, link all resulting
hashes to the object when one was given, then persist each file's bytes.
The returned event list records the link step and every physical write, in
order. -/
def save (s : Db) (fs : Fs) (b : Bucket) (check : String → Int → Option Err)
    (faults : Nat → WfFaults) (object : String) (files : List GoFile) :
    Option Err × Db × Fs × List String × List Ev :=
  match createFileRecords s check files with
  | (some e, s1, _) => (some e, s1, fs, [], [])
  | (none, s1, hashes) =>
    if object = "" then
      match saveWrites b faults (hashes.zip (files.map GoFile.content)) 0 fs with
      | (some e, fs1, evs) => (some e, s1, fs1, [], evs)
      | (none, fs1, evs) => (none, s1, fs1, hashes, evs)
    else
      match Link s1 object hashes with
      | (some e, s2) => (some e, s2, fs, [], [])
      | (none, s2) =>
        match saveWrites b faults (hashes.zip (files.map GoFile.content)) 0 fs with
        | (some e, fs1, evs) => (some e, s2, fs1, [], .link object hashes :: evs)
        | (none, fs1, evs) => (none, s2, fs1, hashes, .link object hashes :: evs)

/-! ### Concrete fixtures used by witnesses and counterexamples -/

/-- A failure oracle under which every database call succeeds. -/
def noFail : Nat → Bool := fun _ => false

/-- A well-formed content hash (forty times the letter a). -/
def hA : String := "aaaaaaaaaaaaaaaaaaaaaaaaaaaaaaaaaaaaaaaa"

/-- A second well-formed content hash (forty times the letter b). -/
def hB : String := "bbbbbbbbbbbbbbbbbbbbbbbbbbbbbbbbbbbbbbbb"

/-- A store whose files table holds `hA` and `hB`, with an empty links table
and a database that never fails. -/
def db0 : Db := ⟨[hA, hB], [], 0, 0, noFail⟩

/-- A store holding only `hA`, whose third database call fails (the call the
reconciliation `DELETE` of `LinkOnly` issues). -/
def db2 : Db := ⟨[hA], [], 0, 0, fun n => n == 2⟩

/-! ### Theorems -/

theorem emptyFiles_false_ne_nil {files : List String} (h : emptyFiles files = false) :
    files ≠ [] := by
  intro hnil; subst hnil; simp [emptyFiles] at h

/-- C7 counterexample: with an empty object string, `Link` with an empty
hash list returns the empty-object error, not success, refuting the claim
for the empty object. -/
theorem link_empty_object_errs : (Link db0 "" []).fst = some Err.emptyObject := by
  rfl

/-- C7 (amended): for every non-empty object string, `Link` with an empty
hash list or a single empty string hash is a no-op returning success and
leaving the store untouched. -/
theorem link_noop_on_empty_files (s : Db) (object : String) (files : List String)
    (hobj : object ≠ "") (hfs : emptyFiles files = true) :
    Link s object files = (none, s) := by
  unfold Link
  rw [if_neg hobj, if_pos hfs]

/-- C7 witness. -/
theorem link_noop_on_empty_files_witness :
    Link db0 "o" [] = (none, db0) ∧ Link db0 "x" [""] = (none, db0) :=
  ⟨link_noop_on_empty_files db0 "o" [] (by decide) (by decide),
   link_noop_on_empty_files db0 "x" [""] (by decide) (by decide)⟩

theorem filePathGo_isSome (hash : String) :
    ∀ (d i : Nat) (path : String), i + d ≤ hash.data.length →
      (filePathGo hash d i path).isSome = true := by
  intro d
  induction d with
  | zero => intro i path _; rfl
  | succ d ih =>
    intro i path hle
    have hi : i < hash.data.length := by omega
    unfold filePathGo
    rw [dif_pos hi]
    exact ih (i + 1) _ (by omega)

theorem filePathGo_none (hash : String) :
    ∀ (d i : Nat) (path : String), i ≤ hash.data.length →
      hash.data.length < i + d → filePathGo hash d i path = none := by
  intro d
  induction d with
  | zero => intro i path h1 h2; omega
  | succ d ih =>
    intro i path h1 h2
    unfold filePathGo
    by_cases hi : i < hash.data.length
    · rw [dif_pos hi]
      exact ih (i + 1) _ hi (by omega)
    · rw [dif_neg hi]

/-- C10: `FilePath` is total exactly on hashes at least as long as the
configured directory depth; on a shorter hash the character slicing is out
of range and the Go code panics (modelled by `none`) instead of returning
an error. -/
theorem filePath_total_iff_long_enough (b : Bucket) (hash : String) :
    (b.DirDepth ≤ hash.length → (FilePath b hash).isSome = true) ∧
    (hash.length < b.DirDepth → FilePath b hash = none) := by
  constructor
  · intro h
    have h' : b.DirDepth ≤ hash.data.length := h
    exact filePathGo_isSome hash b.DirDepth 0 "" (by omega)
  · intro h
    have h' : hash.data.length < b.DirDepth := h
    exact filePathGo_none hash b.DirDepth 0 "" (by omega) (by omega)

/-- C10 witness. -/
theorem filePath_total_iff_long_enough_witness :
    (FilePath ⟨"", 2⟩ "abcdef").isSome = true ∧ FilePath ⟨"", 3⟩ "ab" = none :=
  ⟨(filePath_total_iff_long_enough ⟨"", 2⟩ "abcdef").1 (by decide),
   (filePath_total_iff_long_enough ⟨"", 3⟩ "ab").2 (by decide)⟩

theorem ne_empty_of_data_ne_nil {s : String} (h : s.data ≠ []) : s ≠ "" := by
  intro he; subst he; exact h rfl

theorem pjoin_slash_ne_empty (a b : String) : a ++ "/" ++ b ≠ "" := by
  apply ne_empty_of_data_ne_nil
  simp [String.data_append]

theorem pjoin_assoc {a b : String} (c : String) (hb : b ≠ "") :
    pjoin (pjoin a b) c = pjoin a (pjoin b c) := by
  unfold pjoin
  by_cases ha : a = ""
  · subst ha; simp
  · rw [if_neg ha, if_neg (pjoin_slash_ne_empty a b), if_neg ha, if_neg hb]
    apply String.ext
    simp [String.data_append]

theorem pjoin_foldl_foldr (base : String) :
    ∀ (cs : List Char) (p : String),
      pjoin (List.foldl pjoin p (cs.map (fun c => (⟨[c]⟩ : String)))) base =
        pjoin p (List.foldr (fun c acc => pjoin ⟨[c]⟩ acc) base cs) := by
  intro cs
  induction cs with
  | nil => intro p; rfl
  | cons c cs ih =>
    intro p
    simp only [List.map_cons, List.foldl_cons, List.foldr_cons]
    rw [ih (pjoin p ⟨[c]⟩)]
    exact pjoin_assoc _ (ne_empty_of_data_ne_nil (by simp))

theorem filePathGo_eq (hash : String) :
    ∀ (d i : Nat) (path : String), i + d ≤ hash.data.length →
      filePathGo hash d i path =
        some (pjoin (List.foldl pjoin path
          (((hash.data.drop i).take d).map (fun c => (⟨[c]⟩ : String)))) hash) := by
  intro d
  induction d with
  | zero => intro i path _; simp [filePathGo]
  | succ d ih =>
    intro i path h
    have hi : i < hash.data.length := by omega
    unfold filePathGo
    rw [dif_pos hi, ih (i + 1) _ (by omega)]
    have hdrop : hash.data.drop i = hash.data[i] :: hash.data.drop (i + 1) :=
      List.drop_eq_getElem_cons hi
    rw [hdrop]
    simp only [List.take_succ_cons, List.map_cons, List.foldl_cons, List.get_eq_getElem]

/-- C8: on a hash at least as long as the directory depth, `FilePath` is the
pure sharded layout: one single-character directory per leading character
up to the depth, then the whole hash as the file name; with depth zero the
layout is flat. -/
theorem filePath_builds_sharded_path (b : Bucket) (hash : String)
    (h : b.DirDepth ≤ hash.length) :
    FilePath b hash = some (shardedPath b.DirDepth hash) ∧
    (b.DirDepth = 0 → FilePath b hash = some hash) := by
  have h' : b.DirDepth ≤ hash.data.length := h
  have main : FilePath b hash = some (shardedPath b.DirDepth hash) := by
    unfold FilePath shardedPath
    rw [filePathGo_eq hash b.DirDepth 0 "" (by omega)]
    rw [List.drop_zero]
    rw [pjoin_foldl_foldr hash _ ""]
    simp [pjoin]
  refine ⟨main, fun hd => ?_⟩
  rw [main, hd]
  rfl

/-- C8 witness. -/
theorem filePath_builds_sharded_path_witness :
    FilePath ⟨"", 2⟩ "abcdef" = some "a/b/abcdef" ∧
    FilePath ⟨"", 0⟩ "abcdef" = some "abcdef" :=
  ⟨Eq.trans (filePath_builds_sharded_path ⟨"", 2⟩ "abcdef" (by decide)).1 (by decide),
   (filePath_builds_sharded_path ⟨"", 0⟩ "abcdef" (by decide)).2 rfl⟩

theorem mem_insertLink {l : List LinkRecord} {f o : String} {ts : Nat} {r : LinkRecord}
    (h : r ∈ insertLink l f o ts) : r ∈ l ∨ (r.file = f ∧ r.object = o) := by
  unfold insertLink at h
  split at h
  · exact Or.inl h
  · rcases List.mem_append.mp h with h1 | h1
    · exact Or.inl h1
    · simp at h1
      subst h1
      exact Or.inr ⟨rfl, rfl⟩

theorem mem_insertAll {files : List String} {l : List LinkRecord} {o : String} {ts : Nat}
    {r : LinkRecord} (h : r ∈ insertAll l files o ts) : r ∈ l ∨ r.file ∈ files := by
  induction files generalizing l with
  | nil => exact Or.inl h
  | cons f fs ih =>
    simp only [insertAll, List.foldl_cons] at h
    rcases ih (l := insertLink l f o ts) h with h1 | h1
    · rcases mem_insertLink h1 with h2 | h2
      · exact Or.inl h2
      · exact Or.inr (h2.1 ▸ List.mem_cons_self f fs)
    · exact Or.inr (List.mem_cons_of_mem f h1)

theorem linkedPair_insertLink {l : List LinkRecord} {f o : String} {ts : Nat} {g o' : String} :
    linkedPair (insertLink l f o ts) g o' ↔ linkedPair l g o' ∨ (g = f ∧ o' = o) := by
  unfold insertLink
  split
  case isTrue hp =>
    refine ⟨Or.inl, ?_⟩
    rintro (h | ⟨rfl, rfl⟩)
    · exact h
    · exact hp
  case isFalse hp =>
    unfold linkedPair
    simp only [List.mem_append, List.mem_singleton]
    constructor
    · rintro ⟨r, hr | hr, hf, ho⟩
      · exact Or.inl ⟨r, hr, hf, ho⟩
      · subst hr
        exact Or.inr ⟨hf.symm, ho.symm⟩
    · rintro (⟨r, hr, hf, ho⟩ | ⟨rfl, rfl⟩)
      · exact ⟨r, Or.inl hr, hf, ho⟩
      · exact ⟨⟨g, o', ts⟩, Or.inr rfl, rfl, rfl⟩

theorem linkedPair_insertAll {files : List String} {l : List LinkRecord} {o : String}
    {ts : Nat} {g o' : String} :
    linkedPair (insertAll l files o ts) g o' ↔
      linkedPair l g o' ∨ (o' = o ∧ g ∈ files) := by
  induction files generalizing l with
  | nil => simp [insertAll]
  | cons f fs ih =>
    simp only [insertAll, List.foldl_cons] at *
    rw [ih, linkedPair_insertLink]
    simp only [List.mem_cons]
    constructor
    · rintro ((h | ⟨rfl, rfl⟩) | ⟨rfl, h⟩)
      · exact Or.inl h
      · exact Or.inr ⟨rfl, Or.inl rfl⟩
      · exact Or.inr ⟨rfl, Or.inr h⟩
    · rintro (h | ⟨rfl, h | h⟩)
      · exact Or.inl (Or.inl h)
      · exact Or.inl (Or.inr ⟨h, rfl⟩)
      · exact Or.inr ⟨rfl, h⟩

theorem linkedPair_filter (l : List LinkRecord) (p : LinkRecord → Bool)
    (g o' : String) (keep : Bool)
    (hp : ∀ r : LinkRecord, r.file = g → r.object = o' → p r = keep) :
    linkedPair (l.filter p) g o' ↔ linkedPair l g o' ∧ keep = true := by
  unfold linkedPair
  simp only [List.mem_filter]
  constructor
  · rintro ⟨r, ⟨hr, hpr⟩, hf, ho⟩
    exact ⟨⟨r, hr, hf, ho⟩, ((hp r hf ho).symm.trans hpr)⟩
  · rintro ⟨⟨r, hr, hf, ho⟩, hk⟩
    exact ⟨r, ⟨hr, (hp r hf ho).trans hk⟩, hf, ho⟩

theorem step_links (s : Db) : s.step.links = s.links := rfl

theorem step_files (s : Db) : s.step.files = s.files := rfl

theorem step_now (s : Db) : s.step.now = s.now := rfl

theorem CheckFile_cases {s : Db} {files : List String} {r : Option Err} {s1 : Db}
    (h : CheckFile s files = (r, s1)) :
    s1.links = s.links ∧ s1.files = s.files ∧ s1.now = s.now ∧
      (r = none → ∀ f ∈ files, f ∈ s.files) := by
  unfold CheckFile at h
  split at h
  · cases h; exact ⟨rfl, rfl, rfl, fun hx => Option.noConfusion hx⟩
  · split at h
    · cases h; exact ⟨rfl, rfl, rfl, fun hx => Option.noConfusion hx⟩
    · split at h
      · rename_i hall
        cases h
        refine ⟨rfl, rfl, rfl, fun _ f hf => ?_⟩
        have hc := List.all_eq_true.mp hall f hf
        simpa using hc
      · cases h; exact ⟨rfl, rfl, rfl, fun hx => Option.noConfusion hx⟩

theorem insertLinks_ok {s : Db} {object : String} {files : List String} {s1 : Db}
    (h : insertLinks s object files = (none, s1)) :
    s1.links = insertAll s.links files object s.now ∧ s1.files = s.files := by
  unfold insertLinks at h
  split at h
  · cases h
  · cases h; exact ⟨rfl, rfl⟩

theorem insertLinks_err {s : Db} {object : String} {files : List String} {e : Err} {s1 : Db}
    (h : insertLinks s object files = (some e, s1)) :
    s1.links = s.links ∧ s1.files = s.files := by
  unfold insertLinks at h
  split at h
  · cases h; exact ⟨rfl, rfl⟩
  · cases h

theorem unlink_ok {s : Db} {object : String} {cond : String → Bool} {s1 : Db}
    (h : unlink s object cond = (none, s1)) :
    s1.links = s.links.filter (fun r => !(r.object = object && cond r.file)) ∧
      s1.files = s.files := by
  unfold unlink at h
  split at h
  · cases h
  · cases h; exact ⟨rfl, rfl⟩

theorem unlink_err {s : Db} {object : String} {cond : String → Bool} {e : Err} {s1 : Db}
    (h : unlink s object cond = (some e, s1)) :
    s1.links = s.links ∧ s1.files = s.files := by
  unfold unlink at h
  split at h
  · cases h; exact ⟨rfl, rfl⟩
  · cases h

theorem Link_err {s : Db} {object : String} {files : List String} {e : Err} {s1 : Db}
    (h : Link s object files = (some e, s1)) :
    s1.links = s.links ∧ s1.files = s.files := by
  unfold Link at h
  split at h
  · cases h; exact ⟨rfl, rfl⟩
  · split at h
    · cases h
    · split at h
      · cases h; exact ⟨rfl, rfl⟩
      · rcases hcf : CheckFile s files with ⟨rcf, scf⟩
        rw [hcf] at h
        obtain ⟨hl, hf, _, _⟩ := CheckFile_cases hcf
        cases rcf with
        | some e1 =>
          simp only [andThen] at h
          cases h; exact ⟨hl, hf⟩
        | none =>
          simp only [andThen] at h
          obtain ⟨h1, h2⟩ := insertLinks_err h
          exact ⟨h1.trans hl, h2.trans hf⟩

theorem Link_ok {s : Db} {object : String} {files : List String} {s1 : Db}
    (h : Link s object files = (none, s1)) :
    (emptyFiles files = true ∧ s1 = s) ∨
    (s1.links = insertAll s.links files object s.now ∧ s1.files = s.files ∧
      ∀ f ∈ files, f ∈ s.files) := by
  unfold Link at h
  split at h
  · cases h
  · split at h
    · rename_i hef
      cases h
      exact Or.inl ⟨hef, rfl⟩
    · split at h
      · cases h
      · rcases hcf : CheckFile s files with ⟨rcf, scf⟩
        rw [hcf] at h
        obtain ⟨hl, hf, hn, hmem⟩ := CheckFile_cases hcf
        cases rcf with
        | some e1 => simp only [andThen] at h; cases h
        | none =>
          simp only [andThen] at h
          obtain ⟨h1, h2⟩ := insertLinks_ok h
          refine Or.inr ⟨?_, h2.trans hf, hmem rfl⟩
          rw [h1, hl, hn]

/-- C1: when `Link` returns an error, no link row has been inserted (the
links table is exactly what it was); when `Link` succeeds, every row it
added is for a hash that passed the `FileRecord` existence check, so a
link for a hash is only ever created after that hash was seen to have a
`FileRecord`. -/
theorem link_error_inserts_nothing (s : Db) (object : String) (files : List String)
    (e : Err) (s' : Db) :
    (Link s object files = (some e, s') → s'.links = s.links) ∧
    (Link s object files = (none, s') →
      ∀ r ∈ s'.links, r ∉ s.links → r.file ∈ s.files) := by
  constructor
  · intro h
    exact (Link_err h).1
  · intro h r hr hnr
    rcases Link_ok h with ⟨_, rfl⟩ | ⟨hl, _, hmem⟩
    · exact absurd hr hnr
    · rw [hl] at hr
      rcases mem_insertAll hr with h1 | h1
      · exact absurd h1 hnr
      · exact hmem _ h1

/-- C1 witness: with a malformed hash, `Link` errors with invalid-hash and
the links table is untouched. -/
theorem link_error_inserts_nothing_witness :
    ((Link db0 "o" ["zz"]).snd).links = db0.links :=
  (link_error_inserts_nothing db0 "o" ["zz"] Err.invalidHash (Link db0 "o" ["zz"]).snd).1 rfl

/-- C3: a successful `LinkOnly` leaves the link set of the object exactly
the given hash set, whatever links existed before; with an empty hash list
(or a single empty string) it leaves the object with no links at all,
degenerating to `UnlinkAllOf`. -/
theorem linkOnly_reconciles (s : Db) (object : String) (files : List String) (s' : Db)
    (h : LinkOnly s object files = (none, s')) :
    ∀ f, linkedPair s'.links f object ↔ (emptyFiles files = false ∧ f ∈ files) := by
  intro f
  unfold LinkOnly at h
  split at h
  · cases h
  · split at h
    · rename_i hef
      obtain ⟨hl, _⟩ := unlink_ok h
      rw [hl, linkedPair_filter _ _ f object false
        (fun r h1 h2 => by rw [h2]; simp)]
      simp [hef]
    · rename_i hef
      have hef' : emptyFiles files = false := by
        simpa using hef
      rcases hlk : Link s object files with ⟨rlk, slk⟩
      rw [hlk] at h
      cases rlk with
      | some e1 => simp only [andThen] at h; cases h
      | none =>
        simp only [andThen] at h
        obtain ⟨hl, _⟩ := unlink_ok h
        rcases Link_ok hlk with ⟨he, _⟩ | ⟨hil, _, _⟩
        · rw [he] at hef'; cases hef'
        · rw [hl, linkedPair_filter _ _ f object (files.contains f)
            (fun r h1 h2 => by rw [h1, h2]; simp)]
          rw [hil, linkedPair_insertAll]
          by_cases hf : f ∈ files <;> simp [hf, hef']

/-- C3 witness: two successive reconciliations; after
`LinkOnly(object, [hA])` then `LinkOnly(object, [hB])` the object is
linked to `hB` and no longer to `hA`. -/
theorem linkOnly_reconciles_witness :
    linkedPair ((LinkOnly (LinkOnly db0 "o" [hA]).snd "o" [hB]).snd).links hB "o" ∧
    ¬ linkedPair ((LinkOnly (LinkOnly db0 "o" [hA]).snd "o" [hB]).snd).links hA "o" := by
  constructor
  · exact (linkOnly_reconciles (LinkOnly db0 "o" [hA]).snd "o" [hB]
      (LinkOnly (LinkOnly db0 "o" [hA]).snd "o" [hB]).snd rfl hB).mpr
      ⟨by decide, by decide⟩
  · intro hcon
    have h2 := (linkOnly_reconciles (LinkOnly db0 "o" [hA]).snd "o" [hB]
      (LinkOnly (LinkOnly db0 "o" [hA]).snd "o" [hB]).snd rfl hA).mp hcon
    exact absurd h2.2 (by decide)

/-- C2: the run refuting transactional reconciliation.  `LinkOnly` issues
its two statements through the outer connection, not through the
transaction opened by `runInTx`, so when the reconciliation `DELETE`
fails (third database call), the link inserted by the `Link` step
remains committed: the operation reports an error yet the ledger has
changed. -/
theorem linkOnly_not_transactional :
    (LinkOnly db2 "o" [hA]).fst = some Err.dbErr ∧
    ((LinkOnly db2 "o" [hA]).snd).links = [⟨hA, "o", 0⟩] ∧
    db2.links = [] := by
  exact ⟨by decide, by decide, rfl⟩

/-- C4 counterexample: `CheckFile` given a malformed hash does not reject
it with an invalid-hash error before querying; it runs its query (the
database call counter advances) and reports file-not-exists. -/
theorem checkFile_skips_hash_validation :
    (CheckFile db0 ["zz"]).fst = some Err.fileNotExists ∧
    ((CheckFile db0 ["zz"]).snd).calls = db0.calls + 1 :=
  ⟨rfl, rfl⟩

/-- C4 (amended): `Link`, `Unlink`, `Linked` and `EnsureLinked` reject any
malformed hash with an invalid-hash error before performing any query or
mutation (the store is returned exactly as it was, with no database call
made); `CheckFile` performs no hash-format validation of its own. -/
theorem ledger_operations_validate_hashes (s : Db) (object file : String)
    (files : List String) (hobj : object ≠ "") (hne : emptyFiles files = false)
    (hbad : files.all validHash = false) (hbadf : validHash file = false) :
    Link s object files = (some .invalidHash, s) ∧
    Unlink s object files = (some .invalidHash, s) ∧
    Linked s object file = (some .invalidHash, false, s) ∧
    EnsureLinked s object file = (some .invalidHash, s) := by
  have hch : CheckHash files = some .invalidHash := by
    unfold CheckHash
    rw [hbad]
    rfl
  have hchf : CheckHash [file] = some .invalidHash := by
    unfold CheckHash
    simp [hbadf]
  refine ⟨?_, ?_, ?_, ?_⟩
  · unfold Link
    rw [if_neg hobj, if_neg (by simp [hne]), hch]
  · unfold Unlink
    rw [if_neg hobj, if_neg (by simp [hne]), hch]
  · unfold Linked
    rw [hchf]
  · unfold EnsureLinked Linked
    rw [hchf]

/-- C4 witness. -/
theorem ledger_operations_validate_hashes_witness :
    Link db0 "o" ["zz"] = (some Err.invalidHash, db0) ∧
    Unlink db0 "o" ["zz"] = (some Err.invalidHash, db0) ∧
    Linked db0 "o" "zz" = (some Err.invalidHash, false, db0) ∧
    EnsureLinked db0 "o" "zz" = (some Err.invalidHash, db0) :=
  ledger_operations_validate_hashes db0 "o" "zz" ["zz"]
    (by decide) (by decide) (by decide) (by decide)

/-- C6: the content-store write is idempotent and race-tolerant.  An
existing destination file returns success with the filesystem (and that
file's content) untouched; losing the creation race to a concurrent
writer is success, with the racer's content preserved; an undisturbed
write creates the parent directory and stores exactly the given bytes;
a stat failure, a directory-creation failure or a copy failure surfaces
an I/O error to the caller. -/
theorem writeFile_contract (fs : Fs) (dest : String) (content : Bytes) (f : WfFaults) :
    (∀ c, fs.lookup dest = some c → writeFile fs dest content f = (none, fs)) ∧
    (fs.lookup dest = none → f.statErr = false → f.mkdirErr = false →
      ∀ c, f.race = some c →
        (writeFile fs dest content f).fst = none ∧
        ((writeFile fs dest content f).snd).lookup dest = some c) ∧
    (fs.lookup dest = none → f.statErr = false → f.mkdirErr = false → f.race = none →
      f.copyErr = false →
        writeFile fs dest content f =
          (none, ⟨(dest, content) :: fs.filesOnDisk, parentDir dest :: fs.dirs⟩)) ∧
    (fs.lookup dest = none →
      (f.statErr = true ∨ f.mkdirErr = true ∨ (f.race = none ∧ f.copyErr = true)) →
      (writeFile fs dest content f).fst = some .ioErr) := by
  refine ⟨?_, ?_, ?_, ?_⟩
  · intro c hc
    unfold writeFile
    rw [hc]
  · intro hn hs hm c hr
    unfold writeFile
    rw [hn, hs, hm, hr]
    simp [Fs.lookup]
  · intro hn hs hm hr hc
    unfold writeFile
    rw [hn, hs, hm, hr, hc]
    rfl
  · intro hn hd
    rcases hd with h1 | h1 | ⟨h1, h2⟩
    · simp [writeFile, hn, h1]
    · by_cases hs : f.statErr = true <;> simp [writeFile, hn, h1, hs]
    · by_cases hs : f.statErr = true
      · simp [writeFile, hn, hs]
      · by_cases hm : f.mkdirErr = true <;> simp [writeFile, hn, h1, h2, hs, hm]

/-- An empty filesystem plus one stored file, for the write witnesses. -/
def fs0 : Fs := ⟨[("d", [7])], []⟩

/-- C6 witness. -/
theorem writeFile_contract_witness :
    writeFile fs0 "d" [9] {} = (none, fs0) ∧
    writeFile fs0 "x/y" [9] {} =
      (none, ⟨("x/y", [9]) :: fs0.filesOnDisk, parentDir "x/y" :: fs0.dirs⟩) ∧
    (writeFile fs0 "x/y" [9] { race := some [5] }).snd.lookup "x/y" = some [5] ∧
    (writeFile fs0 "x/y" [9] { copyErr := true }).fst = some Err.ioErr :=
  ⟨(writeFile_contract fs0 "d" [9] {}).1 [7] rfl,
   (writeFile_contract fs0 "x/y" [9] {}).2.2.1 rfl rfl rfl rfl rfl,
   ((writeFile_contract fs0 "x/y" [9] { race := some [5] }).2.1
     rfl rfl rfl [5] rfl).2,
   (writeFile_contract fs0 "x/y" [9] { copyErr := true }).2.2.2
     rfl (Or.inr (Or.inr ⟨rfl, rfl⟩))⟩

theorem saveWrites_events (b : Bucket) (faults : Nat → WfFaults) :
    ∀ (pairs : List (String × Bytes)) (i : Nat) (fs : Fs) (ev : Ev),
      ev ∈ (saveWrites b faults pairs i fs).2.2 → ∃ p ∈ pairs, ev = Ev.write p.fst := by
  intro pairs
  induction pairs with
  | nil =>
    intro i fs ev h
    simp [saveWrites] at h
  | cons p rest ih =>
    intro i fs ev h
    obtain ⟨ph, pbytes⟩ := p
    unfold saveWrites at h
    split at h
    · simp at h
    · split at h
      · simp at h
        subst h
        exact ⟨(ph, pbytes), List.mem_cons_self _ _, rfl⟩
      · simp only [List.mem_cons] at h
        rcases h with h | h
        · subst h
          exact ⟨(ph, pbytes), List.mem_cons_self _ _, rfl⟩
        · obtain ⟨q, hq, he⟩ := ih (i + 1) _ ev h
          exact ⟨q, List.mem_cons_of_mem _ hq, he⟩

theorem save_trace (s : Db) (fs : Fs) (b : Bucket)
    (check : String → Int → Option Err) (faults : Nat → WfFaults)
    (object : String) (files : List GoFile) (hobj : object ≠ "") :
    (save s fs b check faults object files).2.2.2.2 = [] ∨
    ∃ hashes evs, (save s fs b check faults object files).2.2.2.2
        = Ev.link object hashes :: evs ∧
      ∀ ev ∈ evs, ∃ hsh ∈ hashes, ev = Ev.write hsh := by
  unfold save
  split
  · exact Or.inl rfl
  · rename_i rc s1 hashes heq1
    rw [if_neg hobj]
    split
    · exact Or.inl rfl
    · rename_i s2 heq2
      have hevs : ∀ fs1 evs r1,
          saveWrites b faults (hashes.zip (files.map GoFile.content)) 0 fs
            = (r1, fs1, evs) →
          ∀ ev ∈ evs, ∃ hsh ∈ hashes, ev = Ev.write hsh := by
        intro fs1 evs r1 hsw ev hmem
        obtain ⟨q, hq, he⟩ := saveWrites_events b faults _ 0 fs ev
          (by rw [hsw]; exact hmem)
        obtain ⟨h1, -⟩ := List.of_mem_zip hq
        exact ⟨q.fst, h1, he⟩
      split
      · rename_i e fs1 evs heq3
        exact Or.inr ⟨hashes, evs, rfl, hevs fs1 evs (some e) heq3⟩
      · rename_i fs1 evs heq3
        exact Or.inr ⟨hashes, evs, rfl, hevs fs1 evs none heq3⟩

/-- C9: in every `save` run with a non-empty object, any physical write
event is strictly preceded by the ledger link event carrying every hash of
the batch, the written hash among them: no file's bytes are persisted
before all hashes of the batch have been linked to the object. -/
theorem save_links_before_writes (s : Db) (fs : Fs) (b : Bucket)
    (check : String → Int → Option Err) (faults : Nat → WfFaults)
    (object : String) (files : List GoFile) (i : Nat) (h : String)
    (hobj : object ≠ "")
    (hev : ((save s fs b check faults object files).2.2.2.2).get? i
      = some (.write h)) :
    ∃ j < i, ∃ hs, ((save s fs b check faults object files).2.2.2.2).get? j
        = some (.link object hs) ∧ h ∈ hs := by
  rcases save_trace s fs b check faults object files hobj with htr | ⟨hashes, evs, htr, hall⟩
  · rw [htr] at hev
    simp at hev
  · rw [htr] at hev ⊢
    cases i with
    | zero => simp at hev
    | succ j =>
      refine ⟨0, by omega, hashes, rfl, ?_⟩
      have hmem : Ev.write h ∈ evs := List.get?_mem hev
      obtain ⟨hsh, hin, he⟩ := hall _ hmem
      cases he
      exact hin

/-- No-fault write oracle for the save witness. -/
def wfNone : Nat → WfFaults := fun _ => {}

/-- A check policy accepting every file. -/
def chkOk : String → Int → Option Err := fun _ _ => none

/-- A one-byte payload. -/
def gf1 : GoFile := ⟨[0], ""⟩

/-- A bucket with a flat layout rooted at the empty directory. -/
def bkt0 : Bucket := ⟨"", 0⟩

/-- The empty filesystem. -/
def fsE : Fs := ⟨[], []⟩

/-- C9 witness: in a concrete successful run the write event at position 1
is preceded by the link event at position 0 carrying the written hash. -/
theorem save_links_before_writes_witness :
    ∃ j < 1, ∃ hs, ((save db0 fsE bkt0 chkOk wfNone "o" [gf1]).2.2.2.2).get? j
        = some (Ev.link "o" hs) ∧ hashBytes [0] ∈ hs :=
  save_links_before_writes db0 fsE bkt0 chkOk wfNone "o" [gf1] 1 (hashBytes [0])
    (by decide) rfl

theorem digit_char_toNat {n : Nat} (h : n < 10) : (Char.ofNat (48 + n)).toNat = 48 + n := by
  interval_cases n <;> rfl

theorem digit_char_isDigit {n : Nat} (h : n < 10) : (Char.ofNat (48 + n)).isDigit = true := by
  interval_cases n <;> rfl

theorem isDigit_ne_bar {c : Char} (h : c.isDigit = true) : c ≠ '|' := by
  intro he
  subst he
  exact absurd h (by decide)

theorem isWordChar_ne_bar {c : Char} (h : isWordChar c = true) : c ≠ '|' := by
  intro he
  subst he
  exact absurd h (by decide)

theorem formatNatChars_ne_nil (n : Nat) : formatNatChars n ≠ [] := by
  rw [formatNatChars]
  split
  · exact List.cons_ne_nil _ _
  · simp

theorem formatNatChars_digits (n : Nat) : ∀ c ∈ formatNatChars n, c.isDigit = true := by
  induction n using Nat.strong_induction_on with
  | _ n ih =>
    rw [formatNatChars]
    split
    · rename_i h
      intro c hc
      simp only [List.mem_singleton] at hc
      subst hc
      exact digit_char_isDigit h
    · rename_i h
      intro c hc
      rcases List.mem_append.mp hc with hc | hc
      · exact ih (n / 10) (Nat.div_lt_self (by omega) (by omega)) c hc
      · simp only [List.mem_singleton] at hc
        subst hc
        exact digit_char_isDigit (Nat.mod_lt _ (by omega))

theorem decodeDigits_formatNatChars (n : Nat) : decodeDigits (formatNatChars n) = n := by
  induction n using Nat.strong_induction_on with
  | _ n ih =>
    rw [formatNatChars]
    split
    · rename_i h
      show (0 * 10 + ((Char.ofNat (48 + n)).toNat - 48)) = n
      rw [digit_char_toNat h]
      omega
    · rename_i h
      have ihd := ih (n / 10) (Nat.div_lt_self (by omega) (by omega))
      unfold decodeDigits at ihd ⊢
      rw [List.foldl_append]
      rw [ihd]
      show n / 10 * 10 + ((Char.ofNat (48 + n % 10)).toNat - 48) = n
      rw [digit_char_toNat (Nat.mod_lt _ (by omega))]
      omega

theorem splitBar_no_bar {t : List Char} (h : ∀ c ∈ t, c ≠ '|') : splitBar t = [t] := by
  induction t with
  | nil => rfl
  | cons c cs ih =>
    unfold splitBar
    rw [if_neg (h c (List.mem_cons_self _ _))]
    rw [ih (fun x hx => h x (List.mem_cons_of_mem _ hx))]

theorem splitBar_append {t : List Char} (rest : List Char) (h : ∀ c ∈ t, c ≠ '|') :
    splitBar (t ++ '|' :: rest) = t :: splitBar rest := by
  induction t with
  | nil =>
    show splitBar ('|' :: rest) = [] :: splitBar rest
    simp only [splitBar]
    rw [if_pos trivial]
  | cons c cs ih =>
    show splitBar (c :: (cs ++ '|' :: rest)) = (c :: cs) :: splitBar rest
    simp only [splitBar]
    rw [if_neg (h c (List.mem_cons_self _ _))]
    rw [ih (fun x hx => h x (List.mem_cons_of_mem _ hx))]

theorem mk_data (s : String) : String.mk s.data = s := by
  cases s
  rfl

theorem data_ne_nil_of_ne_empty {s : String} (h : s ≠ "") : s.data ≠ [] := by
  intro hnil
  exact h (String.ext hnil)

theorem linkObject_roundtrip_aux (T F : String) (i : Int)
    (hT : T ≠ "") (hTw : ∀ c ∈ T.data, isWordChar c = true)
    (hI0 : 0 ≤ i) (hIlt : i < 2 ^ 63)
    (hFw : ∀ c ∈ F.data, isWordChar c = true) :
    parseLinkObject (LinkObject.toStr ⟨T, i, F⟩) = .ok ⟨T, i, F⟩ := by
  have hdig : ∀ c ∈ formatNatChars i.toNat, c.isDigit = true :=
    fun c hc => formatNatChars_digits _ c hc
  have hdsne : formatNatChars i.toNat ≠ [] := formatNatChars_ne_nil _
  have hTnotbar : ∀ c ∈ T.data, c ≠ '|' := fun c hc => isWordChar_ne_bar (hTw c hc)
  have hdnotbar : ∀ c ∈ formatNatChars i.toNat, c ≠ '|' :=
    fun c hc => isDigit_ne_bar (hdig c hc)
  have hFnotbar : ∀ c ∈ F.data, c ≠ '|' := fun c hc => isWordChar_ne_bar (hFw c hc)
  have hfmt : formatInt i = ⟨formatNatChars i.toNat⟩ := by
    unfold formatInt
    rw [if_neg (by omega)]
  have hTne : T.data ≠ [] := data_ne_nil_of_ne_empty hT
  have hsegT : segTable T.data = true := by
    unfold segTable
    rw [Bool.and_eq_true]
    constructor
    · cases hTd : T.data with
      | nil => exact absurd hTd hTne
      | cons a as => rfl
    · rw [List.all_eq_true]
      intro c hc
      rw [Bool.or_eq_true]
      exact Or.inl (hTw c hc)
  have hsegD : segDigits (formatNatChars i.toNat) = true := by
    unfold segDigits
    rw [Bool.and_eq_true]
    constructor
    · cases hd : formatNatChars i.toNat with
      | nil => exact absurd hd hdsne
      | cons a as => rfl
    · rw [List.all_eq_true]
      intro c hc
      exact hdig c hc
  have hparse : parseIntDec ⟨formatNatChars i.toNat⟩ = .ok i := by
    unfold parseIntDec
    show (if decodeDigits (formatNatChars i.toNat) < 2 ^ 63 then _ else _) = _
    rw [decodeDigits_formatNatChars]
    rw [if_pos (by omega)]
    have : Int.ofNat i.toNat = i := Int.toNat_of_nonneg hI0
    rw [this]
  show parseLinkObject
      (if T = "" ∧ i = 0 ∧ F = "" then ""
        else T ++ "|" ++ formatInt i ++ (if F = "" then "" else "|" ++ F)) = _
  rw [if_neg (fun hcon => hT hcon.1), hfmt]
  by_cases hF : F = ""
  · rw [if_pos hF]
    subst hF
    have hdata : (T ++ "|" ++ (⟨formatNatChars i.toNat⟩ : String) ++ "").data
        = T.data ++ '|' :: formatNatChars i.toNat := by
      simp [String.data_append]
    have hne : T ++ "|" ++ (⟨formatNatChars i.toNat⟩ : String) ++ "" ≠ "" := by
      intro he
      have := congrArg String.data he
      rw [hdata] at this
      simp at this
    have hmo : matchObject (T ++ "|" ++ (⟨formatNatChars i.toNat⟩ : String) ++ "")
        = some (⟨T.data⟩, ⟨formatNatChars i.toNat⟩, "") := by
      unfold matchObject
      rw [hdata, splitBar_append _ hTnotbar, splitBar_no_bar hdnotbar]
      show (if (segTable T.data && segDigits (formatNatChars i.toNat)) = true
        then _ else _) = _
      rw [hsegT, hsegD]
      rfl
    unfold parseLinkObject
    rw [if_neg hne]
    simp only [hmo, hparse, mk_data]
  · rw [if_neg hF]
    have hFne : F.data ≠ [] := data_ne_nil_of_ne_empty hF
    have hsegF : segWord F.data = true := by
      unfold segWord
      rw [Bool.and_eq_true]
      constructor
      · cases hd : F.data with
        | nil => exact absurd hd hFne
        | cons a as => rfl
      · rw [List.all_eq_true]
        intro c hc
        exact hFw c hc
    have hdata : (T ++ "|" ++ (⟨formatNatChars i.toNat⟩ : String) ++ ("|" ++ F)).data
        = T.data ++ '|' :: (formatNatChars i.toNat ++ '|' :: F.data) := by
      simp [String.data_append]
    have hne : T ++ "|" ++ (⟨formatNatChars i.toNat⟩ : String) ++ ("|" ++ F) ≠ "" := by
      intro he
      have := congrArg String.data he
      rw [hdata] at this
      simp at this
    have hmo : matchObject (T ++ "|" ++ (⟨formatNatChars i.toNat⟩ : String) ++ ("|" ++ F))
        = some (⟨T.data⟩, ⟨formatNatChars i.toNat⟩, ⟨F.data⟩) := by
      unfold matchObject
      rw [hdata, splitBar_append _ hTnotbar, splitBar_append _ hdnotbar,
        splitBar_no_bar hFnotbar]
      show (if (segTable T.data && segDigits (formatNatChars i.toNat)
          && segWord F.data) = true then _ else _) = _
      rw [hsegT, hsegD, hsegF]
      rfl
    unfold parseLinkObject
    rw [if_neg hne]
    simp only [hmo, hparse, mk_data]

/-- C5: for every valid object reference (non-empty word-character table,
non-negative 64-bit identifier, optional word-character field) parsing the
canonical encoding returns the reference itself; the zero value encodes to
the empty string; parsing the empty string yields the zero value without
error; and parsing any non-empty string rejected by the object pattern
fails with the invalid-object error. -/
theorem linkObject_string_roundtrip (o : LinkObject) (s : String) :
    (ValidObjectRef o → parseLinkObject (LinkObject.toStr o) = .ok o) ∧
    LinkObject.toStr {} = "" ∧
    parseLinkObject "" = .ok {} ∧
    (s ≠ "" → matchObject s = none → parseLinkObject s = .error .invalidObject) := by
  refine ⟨?_, rfl, rfl, ?_⟩
  · rintro ⟨hT, hTw, hI0, hIlt, hFw⟩
    obtain ⟨T, i, F⟩ := o
    exact linkObject_roundtrip_aux T F i hT hTw hI0 hIlt hFw
  · intro hne hm
    unfold parseLinkObject
    rw [if_neg hne, hm]

/-- C5 witness. -/
theorem linkObject_string_roundtrip_witness :
    parseLinkObject (LinkObject.toStr ⟨"users", 42, "avatar"⟩)
        = .ok ⟨"users", 42, "avatar"⟩ ∧
    parseLinkObject "bad string" = .error .invalidObject :=
  ⟨(linkObject_string_roundtrip ⟨"users", 42, "avatar"⟩ "bad string").1
      (by refine ⟨by decide, by decide, by decide, by decide, by decide⟩),
   (linkObject_string_roundtrip ⟨"users", 42, "avatar"⟩ "bad string").2.2.2
      (by decide) (by decide)⟩

end Filestorage
